import Mathlib

/-!
Shallow embedding of the semantic retrieval core of the youtube-ai-expert
repository, together with proofs checking the natural-language specification
against it.

Embedded source files:
* `src/semantic/chunker.py` (`ContentChunker.chunk_metadata`,
  `ContentChunker.chunk_transcript`),
* `src/memory/vector_db.py` (`VectorDatabase.build_index`,
  `VectorDatabase.search`),
* `src/interface/response.py` (`ResponseGenerator.generate_response`,
  `ResponseGenerator.format_timestamp`).

Modelling conventions:
* Python floats are modelled as rationals (`ℚ`); Python strings as `String`.
* Python dict records become structures; the volatile `chunking_date` /
  `generation_date` fields (`datetime.now()`) are omitted, since no claim
  mentions them.
* File-system persistence is modelled as the identity: `build_index` returns
  the data it would persist, `search` receives the data it would load.
* Fallible paths (a raised `ValueError`, a `return False`) are modelled with
  `Except`.
-/

namespace YTExpert

/-- One processed transcript segment, as written by
`VideoProcessor.process_transcript` (src/processing/processor.py lines
126-130): `text`, `start_time`, `end_time = start + duration`,
`timestamp_seconds = int(start)`, `timestamp_formatted`. -/
structure Segment where
  text : String
  start_time : ℚ
  end_time : ℚ
  timestamp_seconds : Int
  timestamp_formatted : String
deriving DecidableEq, Inhabited

/-- One content chunk, as built by `ContentChunker.chunk_metadata` and
`ContentChunker.chunk_transcript` (src/semantic/chunker.py).  Fields that
only transcript chunks carry are `Option`s / default-empty, mirroring keys
absent from the title and description dicts.  The volatile `chunking_date`
field is omitted. -/
structure Chunk where
  chunk_id : String
  video_id : String
  channel_name : String
  chunk_type : String
  text : String
  video_title : String
  video_url : String
  timestamp_url : String
  start_time : ℚ
  end_time : ℚ
  timestamp_seconds : Option Int := none
  timestamp_formatted : Option String := none
  segment_indices : List Nat := []
deriving DecidableEq, Inhabited

/-- Python `str.split` specialised to the separator `"\n\n"` used by
`chunk_metadata` (`description.split('\n\n')`, chunker.py line 145): scan
left to right, cut at each non-overlapping occurrence of two consecutive
newlines.  (Lean's own `String.splitOn` has the same behaviour but does not
reduce in the kernel, so the scan is written out over the character list.) -/
def splitParagraphsAux (acc : List Char) : List Char → List (List Char)
  | [] => [acc]
  | '\x0a' :: '\x0a' :: rest => acc :: splitParagraphsAux [] rest
  | c :: rest => splitParagraphsAux (acc ++ [c]) rest

/-- `description.split('\n\n')` as a `String → List String`. -/
def splitParagraphs (s : String) : List String :=
  (splitParagraphsAux [] s.data).map String.mk

/-- Python `str.strip()` (chunker.py line 148): drop leading and trailing
whitespace. -/
def pyStrip (s : String) : String :=
  String.mk (((s.data.dropWhile Char.isWhitespace).reverse.dropWhile
    Char.isWhitespace).reverse)

/-- Python `' '.join(texts)` (chunker.py line 219). -/
def joinSpace : List String → String
  | [] => ""
  | [s] => s
  | s :: rest => s ++ " " ++ joinSpace rest

/-- The description part of `ContentChunker.chunk_metadata`
(src/semantic/chunker.py lines 142-165): split the description on `"\n\n"`,
`enumerate` the paragraphs, strip each, skip empty ones (`continue`), and
emit one chunk per remaining paragraph whose `chunk_id` uses the
`enumerate` index `i`. -/
def descriptionChunks (video_id channel_name title description url : String) :
    List Chunk :=
  if description = "" then []
  else
    (splitParagraphs description).enum.filterMap (fun p =>
      let paragraph := pyStrip p.2
      if paragraph = "" then none
      else some
        { chunk_id := video_id ++ "_description_" ++ toString p.1
          video_id := video_id
          channel_name := channel_name
          chunk_type := "description"
          text := paragraph
          video_title := title
          video_url := url
          timestamp_url := url
          start_time := 0
          end_time := 0 })

/-- `ContentChunker.chunk_metadata` (src/semantic/chunker.py lines 107-167):
an optional title chunk (emitted iff `title` is non-empty, Python
truthiness) followed by the description chunks.  The `timestamp_base_url`
argument is accepted and unused, as in the source. -/
def chunk_metadata (video_id channel_name title description url
    timestamp_base_url : String) : List Chunk :=
  (if title = "" then []
   else [{ chunk_id := video_id ++ "_title"
           video_id := video_id
           channel_name := channel_name
           chunk_type := "title"
           text := title
           video_title := title
           video_url := url
           timestamp_url := url
           start_time := 0
           end_time := 0 }])
  ++ descriptionChunks video_id channel_name title description url

/-- The chunk built for the window starting at `start_idx`
(src/semantic/chunker.py lines 196-242): `end_idx = min(i + 5, N)`,
`segments = transcript[i:end_idx]`, text is the space-join of the segment
texts, times come from the first/last segment of the window, and
`segment_indices = list(range(start_idx, end_idx))`.  The source reads
`segments[0]` / `segments[-1]` on a non-empty window; `headD` / `getLastD`
stand in for that indexing. -/
def transcriptChunk (video_id channel_name title url timestamp_base_url :
    String) (transcript : List Segment) (start_idx : Nat) : Chunk :=
  let end_idx := min (start_idx + 5) transcript.length
  let segments := (transcript.drop start_idx).take 5
  let firstSeg := segments.headD default
  let lastSeg := segments.getLastD default
  { chunk_id := video_id ++ "_transcript_" ++ toString start_idx ++ "_" ++
      toString end_idx
    video_id := video_id
    channel_name := channel_name
    chunk_type := "transcript"
    text := joinSpace (segments.map Segment.text)
    video_title := title
    video_url := url
    timestamp_url := timestamp_base_url ++ toString firstSeg.timestamp_seconds
    start_time := firstSeg.start_time
    end_time := lastSeg.end_time
    timestamp_seconds := some firstSeg.timestamp_seconds
    timestamp_formatted := some firstSeg.timestamp_formatted
    segment_indices := List.range' start_idx (end_idx - start_idx) }

/-- The loop `for i in range(0, len(transcript), max_chunk_size - overlap)`
of `ContentChunker.chunk_transcript` (src/semantic/chunker.py line 196),
with `max_chunk_size = 5`, `overlap = 1`, so stride `4`.  The loop is
written with an explicit fuel so that it is structurally recursive and
kernel-evaluable; `chunk_transcript` supplies enough fuel for the whole
range.  The guard `i < transcript.length` is the range bound (it also
subsumes the source's dead `if start_idx >= len(transcript): break`); the
inner `segments = []` test is the source's `if not segments: continue`. -/
def chunk_transcript_go (video_id channel_name title : String)
    (transcript : List Segment) (url timestamp_base_url : String) :
    Nat → Nat → List Chunk
  | 0, _ => []
  | fuel + 1, i =>
    if i < transcript.length then
      if ((transcript.drop i).take 5) = [] then
        chunk_transcript_go video_id channel_name title transcript url
          timestamp_base_url fuel (i + 4)
      else
        transcriptChunk video_id channel_name title url timestamp_base_url
          transcript i ::
          chunk_transcript_go video_id channel_name title transcript url
            timestamp_base_url fuel (i + 4)
    else []

/-- `ContentChunker.chunk_transcript` (src/semantic/chunker.py lines
169-244): empty transcript short-circuits to `[]`; otherwise the sliding
window loop runs over `range(0, len(transcript), 4)`. -/
def chunk_transcript (video_id channel_name title : String)
    (transcript : List Segment) (url timestamp_base_url : String) :
    List Chunk :=
  if transcript = [] then []
  else chunk_transcript_go video_id channel_name title transcript url
    timestamp_base_url (transcript.length + 1) 0

/-- Modelled from the spec (§4.1, transcript chunks): "For window starting
at index `s`: covers `[s, min(s+W, N))`; stop once `s >= N`", with `W = 5`
and stride `4`.  This is the specification side of the window-refinement
claims; the implementation side is `chunk_transcript`. -/
def specWindows (N s : Nat) : List (Nat × Nat) :=
  if s < N then (s, min (s + 5) N) :: specWindows N (s + 4) else []
termination_by N - s
decreasing_by omega

/-- A chunk record as loaded from a `*_embeddings.json` file by
`VectorDatabase.build_index` (src/memory/vector_db.py lines 74-88): chunk
metadata together with its `embedding` key.  `meta` is exactly the dict
with the `embedding` key removed (`chunk_copy.pop('embedding', None)`,
line 123). -/
structure EmbChunk where
  meta : Chunk
  embedding : List ℚ
deriving DecidableEq, Inhabited

/-- The data `VectorDatabase.build_index` persists for a channel
(src/memory/vector_db.py lines 93-131): the FAISS flat index (its stored
vectors), the `index_metadata.json` fields `chunks_count` and `dimension`,
and `chunks.json` (the chunks stripped of their embeddings).  The volatile
`index_date` field is omitted. -/
structure VectorIndex where
  dimension : Nat
  chunks_count : Nat
  vectors : List (List ℚ)
  chunks_without_embeddings : List Chunk
deriving DecidableEq, Inhabited

/-- The failure modes of `VectorDatabase.build_index`: `noChunks` is the
source's `return False` when no chunks were loaded (lines 81-83);
`dimensionMismatch` is the `ValueError` that
`np.array([...], dtype=np.float32)` (line 88) raises when the embedding
rows have differing lengths, which propagates to the caller. -/
inductive BuildError where
  | noChunks
  | dimensionMismatch
deriving DecidableEq

/-- `VectorDatabase.build_index` (src/memory/vector_db.py lines 75-133) on
the concatenated chunk list `all_chunks` loaded from the channel's
embedding files.  `np.array([chunk['embedding'] for chunk in all_chunks],
dtype=np.float32)` succeeds exactly when all embedding rows have the same
length (otherwise it raises `ValueError`, modelled as
`BuildError.dimensionMismatch`); `dimension = embeddings.shape[1]` is then
the width of the first row.  On success the index stores the embeddings in
list order and `chunks.json` stores the same chunks, in the same order,
with the `embedding` key removed. -/
def build_index (all_chunks : List EmbChunk) : Except BuildError VectorIndex :=
  match all_chunks with
  | [] => .error .noChunks
  | c0 :: rest =>
    if (c0 :: rest).all (fun c => c.embedding.length = c0.embedding.length)
    then
      .ok { dimension := c0.embedding.length
            chunks_count := (c0 :: rest).length
            vectors := (c0 :: rest).map EmbChunk.embedding
            chunks_without_embeddings := (c0 :: rest).map EmbChunk.meta }
    else .error .dimensionMismatch

/-- The squared-Euclidean (L2²) distance FAISS's `IndexFlatL2` computes
between a query and a stored vector; both have the index's dimension. -/
def sqDist (q v : List ℚ) : ℚ :=
  ((q.zip v).map (fun p => (p.1 - p.2) * (p.1 - p.2))).sum

/-- The order in which FAISS's exact flat search ranks stored vectors:
smaller distance first, ties broken by lower stored position (the spec's
"stable on original index position"). -/
def distLex (a b : ℚ × Int) : Prop :=
  a.1 < b.1 ∨ (a.1 = b.1 ∧ a.2 ≤ b.2)

instance decDistLex : DecidableRel distLex := fun a b =>
  inferInstanceAs (Decidable (a.1 < b.1 ∨ (a.1 = b.1 ∧ a.2 ≤ b.2)))

instance totalDistLex : IsTotal (ℚ × Int) distLex where
  total a b := by
    unfold distLex
    rcases lt_trichotomy a.1 b.1 with h | h | h
    · exact Or.inl (Or.inl h)
    · rcases le_total a.2 b.2 with h2 | h2
      · exact Or.inl (Or.inr ⟨h, h2⟩)
      · exact Or.inr (Or.inr ⟨h.symm, h2⟩)
    · exact Or.inr (Or.inl h)

instance transDistLex : IsTrans (ℚ × Int) distLex where
  trans a b c hab hbc := by
    unfold distLex at *
    rcases hab with h1 | ⟨h1, h1i⟩ <;> rcases hbc with h2 | ⟨h2, h2i⟩
    · exact Or.inl (h1.trans h2)
    · exact Or.inl (h2 ▸ h1)
    · exact Or.inl (h1 ▸ h2)
    · exact Or.inr ⟨h1.trans h2, h1i.trans h2i⟩

/-- `index.search(query_embedding_np, top_k)` on a FAISS `IndexFlatL2`
holding `vectors` (src/memory/vector_db.py line 168), modelled from its
documented exact semantics, which the spec restates (§4.3): squared-L2
distance to every stored vector, the `top_k` smallest in ascending order
with ties broken by lower stored position, and, when fewer than `top_k`
vectors are stored, the remaining result slots padded with index `-1`
(whose distance slot the caller never reads; `0` stands in for it here). -/
def faissSearch (vectors : List (List ℚ)) (q : List ℚ) (k : Nat) :
    List (ℚ × Int) :=
  let scored := vectors.enum.map (fun p => (sqDist q p.2, (p.1 : Int)))
  (scored.insertionSort distLex).take k ++
    List.replicate (k - vectors.length) (0, -1)

/-- One search result (src/memory/vector_db.py lines 176-179): a copy of
the stored chunk dict plus the derived `score` key. -/
structure Hit where
  chunk : Chunk
  score : ℚ
deriving DecidableEq, Inhabited

/-- `score = float(1.0 / (1.0 + distance))` (src/memory/vector_db.py line
178). -/
def toScore (distance : ℚ) : ℚ := 1 / (1 + distance)

/-- The result loop of `VectorDatabase.search` (src/memory/vector_db.py
lines 164-181) against a loaded index: run the FAISS search, then for each
returned position `idx` skip it when `idx < 0 or idx >= len(chunks)`
(`continue`), otherwise emit the chunk at that position with its score. -/
def search (index : VectorIndex) (query_embedding : List ℚ) (top_k : Nat) :
    List Hit :=
  (faissSearch index.vectors query_embedding top_k).filterMap (fun di =>
    if di.2 < 0 ∨ (index.chunks_without_embeddings.length : Int) ≤ di.2 then
      none
    else
      some { chunk := index.chunks_without_embeddings.getD di.2.toNat default
             score := toScore di.1 })

/-- `VectorDatabase.search` including its missing-index path
(src/memory/vector_db.py lines 147-155): when no index has been built for
the channel (`not os.path.exists(...)`) it logs a warning and returns the
plain empty list; otherwise it loads the persisted index and runs the
search.  `built` is the persisted state for the channel: `none` when no
build has happened. -/
def searchChannel (built : Option VectorIndex) (query_embedding : List ℚ)
    (top_k : Nat) : List Hit :=
  match built with
  | none => []
  | some index => search index query_embedding top_k

/-- One source entry of a generated response
(src/interface/response.py lines 103-110). -/
structure Source where
  video_id : String
  video_title : String
  video_url : String
  timestamp : String
  timestamp_url : String
  text : String
deriving DecidableEq, Inhabited

/-- The response dict returned by `ResponseGenerator.generate_response`
(src/interface/response.py lines 127-133).  The volatile `generation_date`
field is omitted. -/
structure Answer where
  query : String
  answer : String
  sources : List Source
  has_sources : Bool
deriving DecidableEq, Inhabited

/-- Python `f"{n:02d}"` for the seconds part of a timestamp: zero-pad a
non-negative value below ten to two digits. -/
def pad2 (n : Int) : String :=
  if 0 ≤ n ∧ n < 10 then "0" ++ toString n else toString n

/-- `ResponseGenerator.format_timestamp` (src/interface/response.py lines
30-42): `minutes = int(seconds // 60)`, `remaining_seconds =
int(seconds % 60)`, rendered `M:SS`.  For the non-negative times produced
upstream, Python's float `//`, `%` and `int(...)` agree with the floors
taken here. -/
def format_timestamp (seconds : ℚ) : String :=
  let minutes : Int := ⌊seconds / 60⌋
  let remaining_seconds : Int := ⌊seconds⌋ - 60 * ⌊seconds / 60⌋
  toString minutes ++ ":" ++ pad2 remaining_seconds

/-- One `videos[video_id]` group dict (src/interface/response.py lines
69-74): the id, title and url taken from the first hit seen for that
video, plus the hits of that video in arrival order. -/
structure VideoGroup where
  video_id : String
  title : String
  url : String
  chunks : List Hit
deriving DecidableEq, Inhabited

/-- Insert one search result into the group list (the body of the loop at
src/interface/response.py lines 66-75): if a group for its `video_id`
exists, append the hit to that group's `chunks`; otherwise append a new
group at the end (Python dicts preserve insertion order, so groups sit in
first-seen order). -/
def addHit (groups : List VideoGroup) (h : Hit) : List VideoGroup :=
  match groups with
  | [] => [{ video_id := h.chunk.video_id
             title := h.chunk.video_title
             url := h.chunk.video_url
             chunks := [h] }]
  | g :: rest =>
    if g.video_id = h.chunk.video_id then
      { g with chunks := g.chunks ++ [h] } :: rest
    else g :: addHit rest h

/-- `videos = {}` followed by the grouping loop
(src/interface/response.py lines 65-75), with the groups listed in
first-seen (dict insertion) order. -/
def groupByVideo (search_results : List Hit) : List VideoGroup :=
  search_results.foldl addHit []

/-- `max(chunk.get('score', 0) for chunk in v['chunks'])`
(src/interface/response.py line 80); groups are never empty, so the
`getD 0` fallback is never the value used. -/
def bestScore (g : VideoGroup) : ℚ := ((g.chunks.map Hit.score).max?).getD 0

/-- The ordering used by `sorted(..., key=lambda x: x.get('score', 0),
reverse=True)` on hits: higher score first; Python's sort is stable, which
a foldr insertion sort with this non-strict relation reproduces. -/
def hitRel (a b : Hit) : Prop := b.score ≤ a.score

instance decHitRel : DecidableRel hitRel := fun a b =>
  inferInstanceAs (Decidable (b.score ≤ a.score))

instance totalHitRel : IsTotal Hit hitRel := ⟨fun a b => le_total b.score a.score⟩

instance transHitRel : IsTrans Hit hitRel := ⟨fun _ _ _ h1 h2 => h2.trans h1⟩

/-- The ordering used by `sorted(videos.values(), key=lambda v: max(...),
reverse=True)` (src/interface/response.py lines 78-82): higher best score
first, stable. -/
def groupRel (a b : VideoGroup) : Prop := bestScore b ≤ bestScore a

instance decGroupRel : DecidableRel groupRel := fun a b =>
  inferInstanceAs (Decidable (bestScore b ≤ bestScore a))

instance totalGroupRel : IsTotal VideoGroup groupRel :=
  ⟨fun a b => le_total (bestScore b) (bestScore a)⟩

instance transGroupRel : IsTrans VideoGroup groupRel :=
  ⟨fun _ _ _ h1 h2 => h2.trans h1⟩

/-- The source entry built for one selected (video, hit) pair
(src/interface/response.py lines 102-110): `MM:SS` timestamp from the
chunk's `start_time`, the chunk's `timestamp_url` (every stored chunk
carries one, so the `video['url']` fallback of `.get` is unused), and the
chunk text truncated to 150 characters plus an ellipsis marker. -/
def mkSource (v : VideoGroup) (h : Hit) : Source :=
  { video_id := v.video_id
    video_title := v.title
    video_url := v.url
    timestamp := format_timestamp h.chunk.start_time
    timestamp_url := h.chunk.timestamp_url
    text := h.chunk.text.take 150 ++ "..." }

/-- The sources contributed by one selected video
(src/interface/response.py line 101): its hits sorted by descending score,
the top 2 kept. -/
def sourcesOfVideo (v : VideoGroup) : List Source :=
  ((v.chunks.insertionSort hitRel).take 2).map (mkSource v)

/-- The three citation text lines appended to `answer_parts` for one source
(src/interface/response.py lines 114-117). -/
def sourceLines (v : VideoGroup) (s : Source) : List String :=
  ["- " ++ v.title ++ " at " ++ s.timestamp ++ ": " ++ s.text,
   "  Link: " ++ s.timestamp_url,
   ""]

/-- `ResponseGenerator.generate_response` (src/interface/response.py lines
44-133).  Empty `search_results` short-circuit to the fixed no-information
answer with no sources.  Otherwise: group hits by video, rank the groups
by best score (descending, stable), build the summary from the 3 globally
highest-scoring hits, and emit at most 3 videos with at most 2
highest-scoring hits each as sources. -/
def generate_response (query : String) (search_results : List Hit) : Answer :=
  if search_results = [] then
    { query := query
      answer := "I couldn\x27t find any relevant information about that topic in the channel\x27s content."
      sources := []
      has_sources := false }
  else
    let sorted_videos := (groupByVideo search_results).insertionSort groupRel
    let top_chunks := (search_results.insertionSort hitRel).take 3
    let selected := sorted_videos.take 3
    let sources := selected.flatMap sourcesOfVideo
    let answer_parts :=
      ["Based on the content from the YouTube channel, here\x27s what I found about \x27" ++ query ++ "\x27:",
       ""]
      ++ top_chunks.map (fun c => c.chunk.text)
      ++ ["", "Here are the specific sources:"]
      ++ selected.flatMap (fun v => (sourcesOfVideo v).flatMap (sourceLines v))
      ++ ["Would you like more specific information about any of these points?"]
    { query := query
      answer := String.intercalate "\x0a" answer_parts
      sources := sources
      has_sources := !sources.isEmpty }

/-- A concrete transcript segment used in witnesses. -/
def mkSeg (n : Nat) : Segment :=
  { text := "seg" ++ toString n
    start_time := n
    end_time := n + 1
    timestamp_seconds := n
    timestamp_formatted := toString n }

/-- A concrete transcript of `n` segments used in witnesses. -/
def demoTranscript (n : Nat) : List Segment := (List.range n).map mkSeg

/-- A concrete chunk used in witnesses. -/
def demoChunk (vid : String) (n : Nat) : Chunk :=
  { chunk_id := vid ++ "_title"
    video_id := vid
    channel_name := "chan"
    chunk_type := "title"
    text := "text" ++ toString n
    video_title := "T" ++ vid
    video_url := "u" ++ vid
    timestamp_url := "u" ++ vid
    start_time := 0
    end_time := 0 }

/-- Concrete embedded chunks used in witnesses. -/
def demoEmb1 : EmbChunk := ⟨demoChunk "v1" 1, [1, 2]⟩

/-- Second concrete embedded chunk. -/
def demoEmb2 : EmbChunk := ⟨demoChunk "v2" 2, [3, 4]⟩

/-- An embedded chunk whose width disagrees with `demoEmb1`. -/
def demoEmbBad : EmbChunk := ⟨demoChunk "v3" 3, [5]⟩

/-- The index `build_index [demoEmb1, demoEmb2]` produces. -/
def demoBuilt : VectorIndex :=
  { dimension := 2
    chunks_count := 2
    vectors := [[1, 2], [3, 4]]
    chunks_without_embeddings := [demoChunk "v1" 1, demoChunk "v2" 2] }

/-- `9/10`, written in constructor form so that comparisons on it reduce in
the kernel. -/
def r0p9 : ℚ := ⟨9, 10, by decide, by decide⟩

/-- `19/20 = 0.95` in constructor form. -/
def r0p95 : ℚ := ⟨19, 20, by decide, by decide⟩

/-- `1/2` in constructor form. -/
def r0p5 : ℚ := ⟨1, 2, by decide, by decide⟩

/-- `2/5 = 0.4` in constructor form. -/
def r0p4 : ℚ := ⟨2, 5, by decide, by decide⟩

/-- `3/10 = 0.3` in constructor form. -/
def r0p3 : ℚ := ⟨3, 10, by decide, by decide⟩

/-- A concrete search hit used in witnesses. -/
def demoHit (vid : String) (s : ℚ) : Hit :=
  ⟨{ chunk_id := vid ++ "_chunk"
     video_id := vid
     channel_name := "chan"
     chunk_type := "transcript"
     text := "t" ++ vid
     video_title := "T" ++ vid
     video_url := "u" ++ vid
     timestamp_url := "u" ++ vid
     start_time := 0
     end_time := 0 }, s⟩

/-- The aggregation scenario of the spec (§8): 5 hits across 2 videos,
video `vA` with 3 hits of best score `0.9`, video `vB` with 2 hits of best
score `0.95`, `vA` seen first. -/
def demoHits5 : List Hit :=
  [demoHit "vA" r0p9, demoHit "vA" r0p5, demoHit "vB" r0p95,
   demoHit "vA" r0p4, demoHit "vB" r0p3]

/-! ### Helper lemmas -/

theorem filterMap_guard_eq_map_filter {α β : Type _} (P : α → Prop)
    [DecidablePred P] (f : α → β) (l : List α) :
    (l.filterMap fun a => if P a then none else some (f a))
      = (l.filter fun a => ¬ P a).map f := by
  induction l with
  | nil => rfl
  | cons a l ih =>
    by_cases h : P a <;>
      simp [List.filterMap_cons, List.filter_cons, h, ih]

theorem joinSpace_append (xs ys : List String) (hx : xs ≠ []) (hy : ys ≠ []) :
    joinSpace (xs ++ ys) = joinSpace xs ++ " " ++ joinSpace ys := by
  induction xs with
  | nil => exact absurd rfl hx
  | cons x xs ih =>
    cases xs with
    | nil =>
      cases ys with
      | nil => exact absurd rfl hy
      | cons y ys => rfl
    | cons x2 xs2 =>
      rw [List.cons_append]
      have hstep : joinSpace (x :: (x2 :: xs2 ++ ys))
          = x ++ " " ++ joinSpace (x2 :: xs2 ++ ys) := rfl
      rw [hstep, ih (by simp) , show joinSpace (x :: x2 :: xs2)
          = x ++ " " ++ joinSpace (x2 :: xs2) from rfl]
      simp only [String.append_assoc]

theorem window_take_ne_nil {tr : List Segment} {i : Nat}
    (h : i < tr.length) : ((tr.drop i).take 5) ≠ [] := by
  simp only [ne_eq, List.take_eq_nil_iff, List.drop_eq_nil_iff]
  omega

theorem chunk_transcript_go_of_ge (vid ch t url tb : String)
    (tr : List Segment) (fuel i : Nat) (h : tr.length ≤ i) :
    chunk_transcript_go vid ch t tr url tb fuel i = [] := by
  cases fuel with
  | zero => rfl
  | succ fuel =>
    simp only [chunk_transcript_go]
    rw [if_neg (Nat.not_lt.mpr h)]

theorem chunk_transcript_go_windows (vid ch t url tb : String)
    (tr : List Segment) :
    ∀ fuel i, tr.length ≤ i + 4 * fuel →
      (chunk_transcript_go vid ch t tr url tb fuel i).map
          Chunk.segment_indices
        = (specWindows tr.length i).map
            (fun w => List.range' w.1 (w.2 - w.1)) := by
  intro fuel
  induction fuel with
  | zero =>
    intro i hle
    rw [specWindows.eq_def, if_neg (by omega)]
    rfl
  | succ fuel ih =>
    intro i hle
    by_cases h : i < tr.length
    · rw [specWindows.eq_def, if_pos h]
      simp only [chunk_transcript_go, if_pos h,
        if_neg (window_take_ne_nil h), List.map_cons]
      exact congrArg _ (ih (i + 4) (by omega))
    · rw [specWindows.eq_def, if_neg h]
      simp only [chunk_transcript_go, if_neg h, List.map_nil]

theorem chunk_transcript_windows (vid ch t url tb : String)
    (tr : List Segment) :
    (chunk_transcript vid ch t tr url tb).map Chunk.segment_indices
      = (specWindows tr.length 0).map
          (fun w => List.range' w.1 (w.2 - w.1)) := by
  rw [chunk_transcript]
  by_cases he : tr = []
  · rw [if_pos he, he]
    rw [specWindows.eq_def, if_neg (by simp)]
    rfl
  · rw [if_neg he]
    exact chunk_transcript_go_windows vid ch t url tb tr
      (tr.length + 1) 0 (by omega)

theorem chunk_transcript_go_last_pair (vid ch t url tb : String)
    (tr : List Segment) :
    ∀ fuel i, tr.length ≤ i + 4 * fuel → i < tr.length →
      (tr.length - i) % 4 = 1 → 5 ≤ tr.length - i →
      ∃ cs, chunk_transcript_go vid ch t tr url tb fuel i
        = cs ++ [transcriptChunk vid ch t url tb tr (tr.length - 5),
                 transcriptChunk vid ch t url tb tr (tr.length - 1)] := by
  intro fuel
  induction fuel with
  | zero => intro i hle hlt _ _; omega
  | succ fuel ih =>
    intro i hle hlt hmod h5
    simp only [chunk_transcript_go, if_pos hlt,
      if_neg (window_take_ne_nil hlt)]
    by_cases hfive : tr.length - i = 5
    · have hi : i = tr.length - 5 := by omega
      have hlt2 : i + 4 < tr.length := by omega
      refine ⟨[], ?_⟩
      cases fuel with
      | zero => omega
      | succ fuel2 =>
        simp only [chunk_transcript_go, if_pos hlt2,
          if_neg (window_take_ne_nil hlt2),
          chunk_transcript_go_of_ge vid ch t url tb tr fuel2 (i + 4 + 4)
            (by omega)]
        rw [List.nil_append, hi,
          show tr.length - 5 + 4 = tr.length - 1 by omega]
    · obtain ⟨cs, hcs⟩ := ih (i + 4) (by omega) (by omega) (by omega)
        (by omega)
      exact ⟨transcriptChunk vid ch t url tb tr i :: cs, by
        rw [hcs, List.cons_append]⟩

theorem filterMap_eq_map_of_forall_some {α β : Type _} {f : α → Option β}
    {g : α → β} : ∀ {l : List α}, (∀ a ∈ l, f a = some (g a)) →
    l.filterMap f = l.map g := by
  intro l
  induction l with
  | nil => intro _; rfl
  | cons a l ih =>
    intro h
    rw [List.filterMap_cons, h a (by simp), List.map_cons,
      ih (fun b hb => h b (by simp [hb]))]

theorem filterMap_replicate_none {α β : Type _} {f : α → Option β} {a : α}
    (h : f a = none) (m : Nat) : (List.replicate m a).filterMap f = [] := by
  rw [List.filterMap_eq_nil_iff]
  intro b hb
  rw [(List.mem_replicate.mp hb).2]
  exact h

theorem scored_getElem (index : VectorIndex) (q : List ℚ) (i : Nat)
    (hi : i < (index.vectors.enum.map
      (fun p => (sqDist q p.2, (p.1 : Int)))).length) :
    (index.vectors.enum.map (fun p => (sqDist q p.2, (p.1 : Int))))[i]
      = (sqDist q (index.vectors.getD i []), (i : Int)) := by
  have hi' : i < index.vectors.length := by
    simpa [List.enum_length] using hi
  rw [List.getD_eq_getElem _ _ hi']
  simp only [List.getElem_map, List.getElem_enum]

theorem mem_scored (index : VectorIndex) (q : List ℚ) (x : ℚ × Int)
    (hx : x ∈ index.vectors.enum.map
      (fun p => (sqDist q p.2, (p.1 : Int)))) :
    ∃ i, i < index.vectors.length ∧
      x = (sqDist q (index.vectors.getD i []), (i : Int)) := by
  obtain ⟨i, hi, hieq⟩ := List.mem_iff_getElem.mp hx
  refine ⟨i, by simpa [List.enum_length] using hi, ?_⟩
  rw [← hieq, scored_getElem]

theorem scored_snd_nodup (index : VectorIndex) (q : List ℚ) :
    ((index.vectors.enum.map
      (fun p => (sqDist q p.2, (p.1 : Int)))).map Prod.snd).Nodup := by
  show List.Pairwise _ _
  rw [List.pairwise_iff_getElem]
  intro i j hi hj hij
  have hi2 : i < (index.vectors.enum.map
      (fun p => (sqDist q p.2, (p.1 : Int)))).length := by
    simpa using hi
  have hj2 : j < (index.vectors.enum.map
      (fun p => (sqDist q p.2, (p.1 : Int)))).length := by
    simpa using hj
  simp only [List.getElem_map, List.getElem_enum, ne_eq, Int.ofNat_inj]
  omega

theorem sorted_snd_nodup (index : VectorIndex) (q : List ℚ) :
    (((index.vectors.enum.map
      (fun p => (sqDist q p.2, (p.1 : Int)))).insertionSort
      distLex).map Prod.snd).Nodup :=
  ((List.perm_insertionSort distLex _).map Prod.snd).nodup_iff.mpr
    (scored_snd_nodup index q)

theorem search_eq_map_take (index : VectorIndex) (q : List ℚ) (k : Nat)
    (halign : index.chunks_without_embeddings.length
      = index.vectors.length) :
    search index q k
      = (((index.vectors.enum.map
            (fun p => (sqDist q p.2, (p.1 : Int)))).insertionSort
            distLex).take k).map (fun x =>
          ({ chunk := index.chunks_without_embeddings.getD x.2.toNat default
             score := toScore x.1 } : Hit)) := by
  unfold search faissSearch
  rw [List.filterMap_append,
    filterMap_replicate_none (by rw [if_pos (Or.inl (by norm_num))]),
    List.append_nil]
  apply filterMap_eq_map_of_forall_some
  intro x hx
  obtain ⟨i, hi, rfl⟩ := mem_scored index q x
    ((List.perm_insertionSort distLex _).mem_iff.mp
      (List.mem_of_mem_take hx))
  rw [if_neg (by push_neg; omega)]

theorem addHit_flatMap (gs : List VideoGroup) (h : Hit) :
    ((addHit gs h).flatMap VideoGroup.chunks).Perm
      ((gs.flatMap VideoGroup.chunks) ++ [h]) := by
  induction gs with
  | nil => simp [addHit]
  | cons g rest ih =>
    rw [addHit]
    by_cases hid : g.video_id = h.chunk.video_id
    · rw [if_pos hid]
      simp only [List.flatMap_cons]
      rw [List.append_assoc, List.append_assoc]
      exact List.Perm.append_left _ List.perm_append_comm
    · rw [if_neg hid]
      simp only [List.flatMap_cons]
      rw [List.append_assoc]
      exact List.Perm.append_left _ ih

theorem groupByVideo_flatMap_perm (hits : List Hit) :
    ((groupByVideo hits).flatMap VideoGroup.chunks).Perm hits := by
  suffices h : ∀ (gs : List VideoGroup) (l : List Hit),
      ((l.foldl addHit gs).flatMap VideoGroup.chunks).Perm
        ((gs.flatMap VideoGroup.chunks) ++ l) by
    simpa [groupByVideo] using h [] hits
  intro gs l
  induction l generalizing gs with
  | nil => simp
  | cons x l ih =>
    rw [List.foldl_cons]
    refine (ih (addHit gs x)).trans ?_
    refine (List.Perm.append_right l (addHit_flatMap gs x)).trans ?_
    exact List.Perm.of_eq (by simp)

theorem addHit_groups_wf (gs : List VideoGroup) (h : Hit)
    (hgs : ∀ g ∈ gs, g.chunks ≠ [] ∧
      ∀ x ∈ g.chunks, x.chunk.video_id = g.video_id) :
    ∀ g ∈ addHit gs h, g.chunks ≠ [] ∧
      ∀ x ∈ g.chunks, x.chunk.video_id = g.video_id := by
  induction gs with
  | nil =>
    intro g hg
    rw [addHit] at hg
    rcases List.mem_singleton.mp hg with rfl
    refine ⟨by simp, fun x hx => ?_⟩
    rcases List.mem_singleton.mp hx with rfl
    rfl
  | cons g0 rest ih =>
    intro g hg
    rw [addHit] at hg
    by_cases hid : g0.video_id = h.chunk.video_id
    · rw [if_pos hid] at hg
      rcases List.mem_cons.mp hg with rfl | hmem
      · obtain ⟨hne0, hall0⟩ := hgs g0 (List.mem_cons_self g0 rest)
        refine ⟨by simp [hne0], fun x hx => ?_⟩
        rcases List.mem_append.mp hx with hx0 | hx1
        · exact hall0 x hx0
        · rcases List.mem_singleton.mp hx1 with rfl
          exact hid.symm
      · exact hgs g (List.mem_cons_of_mem g0 hmem)
    · rw [if_neg hid] at hg
      rcases List.mem_cons.mp hg with rfl | hmem
      · exact hgs g (List.mem_cons_self g rest)
      · exact ih (fun g2 hg2 => hgs g2 (List.mem_cons_of_mem g0 hg2)) g hmem

theorem addHit_ids (gs : List VideoGroup) (h : Hit) :
    (addHit gs h).map VideoGroup.video_id
      = if h.chunk.video_id ∈ gs.map VideoGroup.video_id
        then gs.map VideoGroup.video_id
        else gs.map VideoGroup.video_id ++ [h.chunk.video_id] := by
  induction gs with
  | nil => simp [addHit]
  | cons g0 rest ih =>
    rw [addHit]
    by_cases hid : g0.video_id = h.chunk.video_id
    · rw [if_pos hid]
      simp [List.map_cons, hid]
    · rw [if_neg hid]
      simp only [List.map_cons, ih]
      by_cases hmem : h.chunk.video_id ∈ rest.map VideoGroup.video_id
      · rw [if_pos hmem, if_pos (by simp [hmem])]
      · rw [if_neg hmem, if_neg (by
          simp only [List.mem_cons]
          rintro (hq | hq)
          · exact hid hq.symm
          · exact hmem hq)]
        simp

theorem groupByVideo_invariants (hits : List Hit) :
    (∀ g ∈ groupByVideo hits, g.chunks ≠ [] ∧
      ∀ x ∈ g.chunks, x.chunk.video_id = g.video_id) ∧
    ((groupByVideo hits).map VideoGroup.video_id).Nodup := by
  suffices h : ∀ (l : List Hit) (gs : List VideoGroup),
      (∀ g ∈ gs, g.chunks ≠ [] ∧
        ∀ x ∈ g.chunks, x.chunk.video_id = g.video_id) →
      (gs.map VideoGroup.video_id).Nodup →
      (∀ g ∈ l.foldl addHit gs, g.chunks ≠ [] ∧
        ∀ x ∈ g.chunks, x.chunk.video_id = g.video_id) ∧
      ((l.foldl addHit gs).map VideoGroup.video_id).Nodup by
    exact h hits [] (by simp) (by simp)
  intro l
  induction l with
  | nil => intro gs h1 h2; exact ⟨h1, h2⟩
  | cons x l ih =>
    intro gs h1 h2
    rw [List.foldl_cons]
    refine ih (addHit gs x) (addHit_groups_wf gs x h1) ?_
    rw [addHit_ids]
    split
    · exact h2
    · rename_i hmem
      simp [List.nodup_append, h2, hmem]

/-! ### Claim theorems -/

/-- Claim C3: transcript chunking realises exactly the spec's sliding
windows (stride `4 = W - V` with `W = 5`, `V = 1`): the emitted chunks
cover, in order, the segment ranges `[s, min (s+5) N)` for
`s = 0, 4, 8, ...` while `s < N`.  In particular every 7-segment
transcript yields exactly the two chunks `[0,5)` and `[4,7)` (overlapping
in exactly segment `4`), and an empty transcript yields no chunks and no
error. -/
theorem chunkTranscript_window_refinement (vid ch t url tb : String)
    (transcript : List Segment) :
    ((chunk_transcript vid ch t transcript url tb).map
        Chunk.segment_indices
      = (specWindows transcript.length 0).map
          (fun w => List.range' w.1 (w.2 - w.1))) ∧
    ((chunk_transcript "v" "c" "t" (demoTranscript 7) "u" "b").map
        Chunk.segment_indices
      = [[0, 1, 2, 3, 4], [4, 5, 6]]) ∧
    (chunk_transcript "v" "c" "t" ([] : List Segment) "u" "b" = []) :=
  ⟨chunk_transcript_windows vid ch t url tb transcript, by decide, rfl⟩

/-- Claim C10: for every transcript whose length `N` satisfies `N ≥ 5` and
`N ≡ 1 (mod 4)`, the chunk list ends with a window `[N-5, N)` followed by
a final window `[N-1, N)` covering exactly one segment — a segment the
preceding chunk already covers — and the final chunk's text is a suffix
of (hence wholly contained in) its predecessor's text. -/
theorem chunkTranscript_trailing_window (vid ch t url tb : String)
    (transcript : List Segment) (h5 : 5 ≤ transcript.length)
    (hmod : transcript.length % 4 = 1) :
    ∃ cs cpred clast,
      chunk_transcript vid ch t transcript url tb = cs ++ [cpred, clast] ∧
      cpred.segment_indices = List.range' (transcript.length - 5) 5 ∧
      clast.segment_indices = [transcript.length - 1] ∧
      ∃ s, cpred.text = s ++ clast.text := by
  have hne : transcript ≠ [] := by
    intro h
    rw [h] at h5
    simp at h5
  obtain ⟨cs, hcs⟩ := chunk_transcript_go_last_pair vid ch t url tb
    transcript (transcript.length + 1) 0 (by omega) (by omega)
    (by simpa using hmod) (by omega)
  refine ⟨cs, _, _, by rw [chunk_transcript, if_neg hne]; exact hcs,
    ?_, ?_, ?_⟩
  · simp only [transcriptChunk]
    have h1 : transcript.length - 5 + 5 = transcript.length := by omega
    rw [h1, min_self,
      show transcript.length - (transcript.length - 5) = 5 by omega]
  · simp only [transcriptChunk]
    have h1 : min (transcript.length - 1 + 5) transcript.length
        = transcript.length := by omega
    rw [h1, show transcript.length - (transcript.length - 1) = 1 by omega,
      List.range'_one]
  · have hB5 : (transcript.drop (transcript.length - 5)).length = 5 := by
      rw [List.length_drop]
      omega
    have htakeB : (transcript.drop (transcript.length - 5)).take 5
        = transcript.drop (transcript.length - 5) :=
      List.take_of_length_le (by omega)
    have hdrop4 : (transcript.drop (transcript.length - 5)).drop 4
        = transcript.drop (transcript.length - 1) := by
      rw [List.drop_drop, show transcript.length - 5 + 4
        = transcript.length - 1 by omega]
    have hA1 : (transcript.drop (transcript.length - 1)).length = 1 := by
      rw [List.length_drop]
      omega
    have htakeA : (transcript.drop (transcript.length - 1)).take 5
        = transcript.drop (transcript.length - 1) :=
      List.take_of_length_le (by omega)
    have hAne : transcript.drop (transcript.length - 1) ≠ [] := by
      intro h
      rw [h] at hA1
      simp at hA1
    have hB4ne : (transcript.drop (transcript.length - 5)).take 4 ≠ [] := by
      intro h
      have := congrArg List.length h
      rw [List.length_take] at this
      simp at this
      omega
    refine ⟨joinSpace (((transcript.drop (transcript.length - 5)).take 4).map
      Segment.text) ++ " ", ?_⟩
    show joinSpace (((transcript.drop (transcript.length - 5)).take 5).map
        Segment.text)
      = joinSpace (((transcript.drop (transcript.length - 5)).take 4).map
          Segment.text) ++ " "
        ++ joinSpace (((transcript.drop (transcript.length - 1)).take 5).map
            Segment.text)
    rw [htakeA, ← hdrop4, htakeB]
    conv_lhs => rw [← List.take_append_drop 4
      (transcript.drop (transcript.length - 5))]
    rw [List.map_append, joinSpace_append _ _ (by simpa using hB4ne)
      (by rw [hdrop4]; simpa using hAne)]

/-- Witness for `chunkTranscript_trailing_window` at a concrete 5-segment
transcript. -/
theorem chunkTranscript_trailing_window_witness :
    5 ≤ (demoTranscript 5).length ∧ (demoTranscript 5).length % 4 = 1 ∧
    (∃ cs cpred clast,
      chunk_transcript "v" "c" "t" (demoTranscript 5) "u" "b"
        = cs ++ [cpred, clast] ∧
      cpred.segment_indices = List.range' ((demoTranscript 5).length - 5) 5 ∧
      clast.segment_indices = [(demoTranscript 5).length - 1] ∧
      ∃ s, cpred.text = s ++ clast.text) :=
  ⟨by decide, by decide,
   chunkTranscript_trailing_window "v" "c" "t" "u" "b" (demoTranscript 5)
     (by decide) (by decide)⟩

/-- Claim C2: against a positionally-aligned index (which every built
index is), `search` returns exactly `min top_k n` hits (`n` the stored
chunk count), one per selected stored position, each scoring its exact
squared-Euclidean distance; positions are distinct and in strictly
ascending (distance, position) order — ascending distance with ties
broken by lower position — and every unselected stored position is beaten
by every selected one under the same order.  When `top_k` exceeds `n` all
`n` hits are returned with no error; the FAISS padding positions (`-1`)
are silently dropped rather than treated as errors. -/
theorem search_exact_topk (index : VectorIndex) (q : List ℚ) (k : Nat)
    (halign : index.chunks_without_embeddings.length
      = index.vectors.length) :
    ∃ ps : List Nat,
      search index q k = ps.map (fun p =>
        { chunk := index.chunks_without_embeddings.getD p default
          score := toScore (sqDist q (index.vectors.getD p [])) }) ∧
      ps.length = min k index.vectors.length ∧
      ps.Nodup ∧
      (∀ p ∈ ps, p < index.vectors.length) ∧
      ps.Pairwise (fun a b =>
        sqDist q (index.vectors.getD a [])
            < sqDist q (index.vectors.getD b [])
        ∨ (sqDist q (index.vectors.getD a [])
              = sqDist q (index.vectors.getD b []) ∧ a < b)) ∧
      (∀ j, j < index.vectors.length → j ∉ ps → ∀ p ∈ ps,
        sqDist q (index.vectors.getD p [])
            < sqDist q (index.vectors.getD j [])
        ∨ (sqDist q (index.vectors.getD p [])
              = sqDist q (index.vectors.getD j []) ∧ p < j)) := by
  classical
  refine ⟨((index.vectors.enum.map
      (fun p => (sqDist q p.2, (p.1 : Int)))).insertionSort
      distLex).take k |>.map (fun x => x.2.toNat), ?_, ?_, ?_, ?_, ?_, ?_⟩
  case _ =>
    rw [search_eq_map_take index q k halign, List.map_map]
    apply List.map_congr_left
    intro x hx
    obtain ⟨i, hi, rfl⟩ := mem_scored index q x
      ((List.perm_insertionSort distLex _).mem_iff.mp
        (List.mem_of_mem_take hx))
    simp
  case _ =>
    rw [List.length_map, List.length_take,
      (List.perm_insertionSort distLex _).length_eq]
    simp [List.enum_length]
  case _ =>
    have htk : ((((index.vectors.enum.map
        (fun p => (sqDist q p.2, (p.1 : Int)))).insertionSort
        distLex).take k).map Prod.snd).Nodup := by
      rw [List.map_take]
      exact (List.take_sublist _ _).nodup (sorted_snd_nodup index q)
    rw [show (fun x : ℚ × Int => x.2.toNat)
        = Int.toNat ∘ Prod.snd from rfl, ← List.map_map]
    refine List.Nodup.map_on ?_ htk
    intro a ha b hb hab
    obtain ⟨x, hx, rfl⟩ := List.mem_map.mp ha
    obtain ⟨y, hy, rfl⟩ := List.mem_map.mp hb
    obtain ⟨i, hi, rfl⟩ := mem_scored index q x
      ((List.perm_insertionSort distLex _).mem_iff.mp
        (List.mem_of_mem_take hx))
    obtain ⟨j, hj, rfl⟩ := mem_scored index q y
      ((List.perm_insertionSort distLex _).mem_iff.mp
        (List.mem_of_mem_take hy))
    simp only [Int.toNat_ofNat] at hab
    simp [hab]
  case _ =>
    intro p hp
    obtain ⟨x, hx, rfl⟩ := List.mem_map.mp hp
    obtain ⟨i, hi, rfl⟩ := mem_scored index q x
      ((List.perm_insertionSort distLex _).mem_iff.mp
        (List.mem_of_mem_take hx))
    simpa using hi
  case _ =>
    rw [List.pairwise_map]
    have hpw : List.Pairwise distLex
        (((index.vectors.enum.map
          (fun p => (sqDist q p.2, (p.1 : Int)))).insertionSort
          distLex).take k) :=
      List.Pairwise.sublist (List.take_sublist _ _)
        (List.sorted_insertionSort distLex _)
    have hpwne : List.Pairwise (fun x y : ℚ × Int => x.2 ≠ y.2)
        (((index.vectors.enum.map
          (fun p => (sqDist q p.2, (p.1 : Int)))).insertionSort
          distLex).take k) := by
      have h2 : ((((index.vectors.enum.map
          (fun p => (sqDist q p.2, (p.1 : Int)))).insertionSort
          distLex).take k).map Prod.snd).Nodup := by
        rw [List.map_take]
        exact (List.take_sublist _ _).nodup (sorted_snd_nodup index q)
      exact List.pairwise_map.mp h2
    refine (hpw.and hpwne).imp_of_mem ?_
    intro x y hx hy hxy
    obtain ⟨i, hi, rfl⟩ := mem_scored index q x
      ((List.perm_insertionSort distLex _).mem_iff.mp
        (List.mem_of_mem_take hx))
    obtain ⟨j, hj, rfl⟩ := mem_scored index q y
      ((List.perm_insertionSort distLex _).mem_iff.mp
        (List.mem_of_mem_take hy))
    obtain ⟨h1, hne⟩ := hxy
    unfold distLex at h1
    rcases h1 with hlt | ⟨heq, hle⟩
    · exact Or.inl (by simpa using hlt)
    · refine Or.inr ⟨by simpa using heq, ?_⟩
      simp only [Int.toNat_ofNat]
      simp only at hle hne
      omega
  case _ =>
    intro j hj hnotin p hp
    obtain ⟨y, hy, rfl⟩ := List.mem_map.mp hp
    obtain ⟨i, hi, hyeq⟩ := mem_scored index q y
      ((List.perm_insertionSort distLex _).mem_iff.mp
        (List.mem_of_mem_take hy))
    have hxj : (sqDist q (index.vectors.getD j []), (j : Int))
        ∈ (index.vectors.enum.map
          (fun p => (sqDist q p.2, (p.1 : Int)))) := by
      refine List.mem_iff_getElem.mpr ⟨j, by simpa [List.enum_length] using hj, ?_⟩
      rw [scored_getElem]
    have hxj' : (sqDist q (index.vectors.getD j []), (j : Int))
        ∈ ((index.vectors.enum.map
          (fun p => (sqDist q p.2, (p.1 : Int)))).insertionSort distLex) :=
      (List.perm_insertionSort distLex _).mem_iff.mpr hxj
    rw [← List.take_append_drop k ((index.vectors.enum.map
      (fun p => (sqDist q p.2, (p.1 : Int)))).insertionSort distLex)]
      at hxj'
    rcases List.mem_append.mp hxj' with hin | hin
    · exact absurd (List.mem_map.mpr ⟨_, hin, by simp⟩) hnotin
    · have hcross : distLex y
          (sqDist q (index.vectors.getD j []), (j : Int)) := by
        have hpairs := List.sorted_insertionSort distLex
          (index.vectors.enum.map
            (fun p => (sqDist q p.2, (p.1 : Int))))
        rw [List.Sorted, ← List.take_append_drop k ((index.vectors.enum.map
          (fun p => (sqDist q p.2, (p.1 : Int)))).insertionSort distLex),
          List.pairwise_append] at hpairs
        exact hpairs.2.2 y hy _ hin
      have hpne : y.2.toNat ≠ j := fun h => hnotin (h ▸ hp)
      rw [hyeq] at hcross ⊢
      unfold distLex at hcross
      rcases hcross with hlt | ⟨heq, hle⟩
      · exact Or.inl (by simpa using hlt)
      · refine Or.inr ⟨by simpa using heq, ?_⟩
        rw [hyeq] at hpne
        simp only [Int.toNat_ofNat] at hpne ⊢
        simp only at hle
        omega

/-- Witness for `search_exact_topk` on a concrete two-vector index. -/
theorem search_exact_topk_witness :
    demoBuilt.chunks_without_embeddings.length = demoBuilt.vectors.length ∧
    (∃ ps : List Nat,
      search demoBuilt [1, 0] 1 = ps.map (fun p =>
        { chunk := demoBuilt.chunks_without_embeddings.getD p default
          score := toScore (sqDist [1, 0] (demoBuilt.vectors.getD p [])) }) ∧
      ps.length = min 1 demoBuilt.vectors.length ∧
      ps.Nodup ∧
      (∀ p ∈ ps, p < demoBuilt.vectors.length) ∧
      ps.Pairwise (fun a b =>
        sqDist [1, 0] (demoBuilt.vectors.getD a [])
            < sqDist [1, 0] (demoBuilt.vectors.getD b [])
        ∨ (sqDist [1, 0] (demoBuilt.vectors.getD a [])
              = sqDist [1, 0] (demoBuilt.vectors.getD b []) ∧ a < b)) ∧
      (∀ j, j < demoBuilt.vectors.length → j ∉ ps → ∀ p ∈ ps,
        sqDist [1, 0] (demoBuilt.vectors.getD p [])
            < sqDist [1, 0] (demoBuilt.vectors.getD j [])
        ∨ (sqDist [1, 0] (demoBuilt.vectors.getD p [])
              = sqDist [1, 0] (demoBuilt.vectors.getD j []) ∧ p < j))) :=
  ⟨rfl, search_exact_topk demoBuilt [1, 0] 1 rfl⟩

/-- Claim C8: for every non-empty hit list the aggregator partitions the
hits into per-video groups tagged with the hit's `video_id` (the grouped
hits are a permutation of the input, each group is non-empty and
homogeneous, group ids are distinct, in first-seen order), ranks the
groups by best (maximum) hit score descending — stably, so any
best-score-ordered subsequence of the first-seen group list survives into
the ranking — and builds its sources from at most 3 videos with at most 2
hits each, those hits taken in descending score order.  In the spec's
scenario (5 hits over 2 videos with best scores 0.9 and 0.95, the 0.9
video seen first and holding more hits) the 0.95 video's sources come
first. -/
theorem generateResponse_grouping (q : String) (hits : List Hit)
    (hne : hits ≠ []) :
    ((groupByVideo hits).flatMap VideoGroup.chunks).Perm hits ∧
    (∀ g ∈ groupByVideo hits, g.chunks ≠ [] ∧
      ∀ x ∈ g.chunks, x.chunk.video_id = g.video_id) ∧
    ((groupByVideo hits).map VideoGroup.video_id).Nodup ∧
    (generate_response q hits).sources
      = (((groupByVideo hits).insertionSort groupRel).take 3).flatMap
          sourcesOfVideo ∧
    List.Sorted (fun a b => bestScore b ≤ bestScore a)
      ((groupByVideo hits).insertionSort groupRel) ∧
    (∀ gl : List VideoGroup, gl.Pairwise groupRel →
      gl.Sublist (groupByVideo hits) →
      gl.Sublist ((groupByVideo hits).insertionSort groupRel)) ∧
    (((groupByVideo hits).insertionSort groupRel).take 3).length ≤ 3 ∧
    (∀ g : VideoGroup, (sourcesOfVideo g).length ≤ 2 ∧
      List.Sorted (fun a b => Hit.score b ≤ Hit.score a)
        ((g.chunks.insertionSort hitRel).take 2)) ∧
    ((generate_response "query" demoHits5).sources.map Source.video_id
      = ["vB", "vB", "vA", "vA"]) := by
  refine ⟨groupByVideo_flatMap_perm hits, (groupByVideo_invariants hits).1,
    (groupByVideo_invariants hits).2, ?_, ?_, ?_, ?_, ?_, ?_⟩
  · rw [generate_response, if_neg hne]
  · exact List.sorted_insertionSort groupRel (groupByVideo hits)
  · exact fun gl hpw hsub => List.sublist_insertionSort hpw hsub
  · simp [List.length_take]
  · intro g
    refine ⟨by simp [sourcesOfVideo, List.length_take], ?_⟩
    exact List.Pairwise.sublist (List.take_sublist _ _)
      (List.sorted_insertionSort hitRel g.chunks)
  · decide

/-- Witness for `generateResponse_grouping`: the concrete 5-hit scenario
with the non-emptiness hypothesis discharged. -/
theorem generateResponse_grouping_witness :
    demoHits5 ≠ [] ∧
    ((generate_response "query" demoHits5).sources.map Source.video_id
      = ["vB", "vB", "vA", "vA"]) :=
  ⟨by decide,
   (generateResponse_grouping "query" demoHits5
     (by decide)).2.2.2.2.2.2.2.2⟩

/-- Claim C9: for the empty hit list, `generate_response` returns the fixed
no-relevant-information answer with `has_sources = false` and an empty
source list, as an ordinary `Answer` value (the function is total; this
path is not an error). -/
theorem generateResponse_empty (query : String) :
    generate_response query [] =
      { query := query
        answer := "I couldn\x27t find any relevant information about that topic in the channel\x27s content."
        sources := []
        has_sources := false } := rfl

/-- Claim C6 (counterexample): a search against a channel with no built
index does not fail with a distinguishable `IndexNotFound` error value: it
returns the plain empty list, the very same value a successful search
returning no hits produces (here: a successful search with `top_k = 0`
against a built index). -/
theorem searchChannel_missing_counterexample :
    searchChannel none [1, 2] 5 = [] ∧
    searchChannel (some demoBuilt) [1, 2] 0 = [] ∧
    searchChannel none [1, 2] 5 = searchChannel (some demoBuilt) [1, 2] 0 :=
  ⟨rfl, rfl, rfl⟩

/-- Claim C6 (amended): for every channel with no built index,
`VectorDatabase.search` logs a warning and returns the empty hit list — a
normal value of the ordinary result type, not a distinguishable error. -/
theorem searchChannel_missing_returns_empty :
    ∀ (query_embedding : List ℚ) (top_k : Nat),
      searchChannel none query_embedding top_k = [] :=
  fun _ _ => rfl

/-- Claim C4 (counterexample): for the description `"a\n\n\n\nb"` the
split produces paragraphs `["a", "", "b"]`; the empty middle paragraph is
dropped but its `enumerate` index is still consumed, so the emitted
chunk ids are `v_description_0` and `v_description_2`, not the
`v_description_0`, `v_description_1` the claim's non-empty-only indexing
would give. -/
theorem descriptionChunks_counterexample :
    ((descriptionChunks "v" "chan" "t" "a\n\n\n\nb" "u").map Chunk.chunk_id)
        = ["v_description_0", "v_description_2"] ∧
    ((descriptionChunks "v" "chan" "t" "a\n\n\n\nb" "u").map Chunk.chunk_id)
        ≠ ["v_description_0", "v_description_1"] := by decide

/-- Claim C4 (amended): description chunking splits on two consecutive
newlines and emits exactly one chunk per non-empty trimmed paragraph, in
order, with the emitted text being the trimmed paragraph; the numeric
index in each `chunk_id` is the paragraph's position in the full split
(empty paragraphs are dropped but still consume indices). -/
theorem descriptionChunks_per_paragraph
    (video_id channel_name title description url : String) :
    (descriptionChunks video_id channel_name title description url).map
        (fun c => (c.chunk_id, c.text))
      = ((splitParagraphs description).enum.filter
            (fun p => ¬ pyStrip p.2 = "")).map
          (fun p => (video_id ++ "_description_" ++ toString p.1,
            pyStrip p.2)) := by
  by_cases hd : description = ""
  · subst hd
    rfl
  · rw [descriptionChunks, if_neg hd, List.map_filterMap]
    have h2 : ∀ p : Nat × String,
        Option.map (fun c : Chunk => (c.chunk_id, c.text))
          ((fun p : Nat × String =>
            let paragraph := pyStrip p.2
            if paragraph = "" then none
            else some
              { chunk_id := video_id ++ "_description_" ++ toString p.1
                video_id := video_id
                channel_name := channel_name
                chunk_type := "description"
                text := paragraph
                video_title := title
                video_url := url
                timestamp_url := url
                start_time := 0
                end_time := 0 }) p)
          = (fun p : Nat × String =>
              if pyStrip p.2 = "" then none
              else some (video_id ++ "_description_" ++ toString p.1,
                pyStrip p.2)) p := by
      intro p
      by_cases h : pyStrip p.2 = "" <;> simp [h]
    simp only [h2]
    exact filterMap_guard_eq_map_filter
      (fun p : Nat × String => pyStrip p.2 = "") _ _

/-- Claim C1: a successful build stores exactly one vector and one
embedding-stripped chunk per input chunk, in input order: position `i` of
`vectors` holds the `i`-th input chunk's embedding and position `i` of
`chunks_without_embeddings` holds the same chunk's metadata, and all
counts equal the total input chunk count.  Since `build_index` is a pure
function of `all_chunks`, rebuilding from the same input collections
yields the identical pairing. -/
theorem buildIndex_positional_correspondence (all_chunks : List EmbChunk)
    (index : VectorIndex)
    (h : build_index all_chunks = Except.ok index) :
    index.vectors.length = all_chunks.length ∧
    index.chunks_without_embeddings.length = all_chunks.length ∧
    index.chunks_count = all_chunks.length ∧
    ∀ i, i < all_chunks.length →
      index.vectors.getD i [] = (all_chunks.getD i default).embedding ∧
      index.chunks_without_embeddings.getD i default =
        (all_chunks.getD i default).meta := by
  cases all_chunks with
  | nil => exact absurd h (by simp [build_index])
  | cons c0 rest =>
    rw [build_index] at h
    split at h
    · cases h
      refine ⟨by simp, by simp, by simp, fun i hi => ⟨?_, ?_⟩⟩
      · rw [List.getD_eq_getElem _ _ (by simpa using hi),
          List.getD_eq_getElem _ _ hi, List.getElem_map]
      · rw [List.getD_eq_getElem _ _ (by simpa using hi),
          List.getD_eq_getElem _ _ hi, List.getElem_map]
    · exact absurd h (by simp)

/-- Witness for `buildIndex_positional_correspondence` at a concrete
two-chunk input. -/
theorem buildIndex_positional_correspondence_witness :
    demoBuilt.vectors.length = [demoEmb1, demoEmb2].length ∧
    demoBuilt.chunks_without_embeddings.length = [demoEmb1, demoEmb2].length ∧
    demoBuilt.chunks_count = [demoEmb1, demoEmb2].length ∧
    ∀ i, i < [demoEmb1, demoEmb2].length →
      demoBuilt.vectors.getD i [] =
        ([demoEmb1, demoEmb2].getD i default).embedding ∧
      demoBuilt.chunks_without_embeddings.getD i default =
        ([demoEmb1, demoEmb2].getD i default).meta :=
  buildIndex_positional_correspondence [demoEmb1, demoEmb2] demoBuilt rfl

/-- Claim C5: if any chunk carries an embedding whose width differs from
the first chunk's width, `build_index` fails with the dimension-mismatch
error (the `ValueError` raised by `np.array`, surfaced to the caller and
catchable there — modelled as an `Except.error` value) and produces no
index; moreover a successful build never truncates or pads: its vectors
are exactly the input embeddings and every indexed embedding has exactly
the observed dimension. -/
theorem buildIndex_dimension_mismatch (c0 : EmbChunk) (rest : List EmbChunk)
    (hbad : ∃ c ∈ c0 :: rest, c.embedding.length ≠ c0.embedding.length) :
    build_index (c0 :: rest) = Except.error BuildError.dimensionMismatch ∧
    (∀ index : VectorIndex, ¬ build_index (c0 :: rest) = Except.ok index) ∧
    (∀ (cs : List EmbChunk) (index : VectorIndex),
      build_index cs = Except.ok index →
      index.vectors = cs.map EmbChunk.embedding ∧
      ∀ c ∈ cs, c.embedding.length = index.dimension) := by
  obtain ⟨c, hc, hne⟩ := hbad
  have herr : build_index (c0 :: rest)
      = Except.error BuildError.dimensionMismatch := by
    rw [build_index, if_neg]
    simp only [List.all_eq_true, decide_eq_true_eq]
    intro hall
    exact hne (hall c hc)
  refine ⟨herr, fun index h => by rw [herr] at h; exact Except.noConfusion h,
    fun cs index h => ?_⟩
  cases cs with
  | nil => exact absurd h (by simp [build_index])
  | cons d0 ds =>
    rw [build_index] at h
    split at h
    · rename_i hcond
      cases h
      refine ⟨rfl, fun c hc => ?_⟩
      simp only [List.all_eq_true, decide_eq_true_eq] at hcond
      exact hcond c hc
    · exact absurd h (by simp)

/-- Witness for `buildIndex_dimension_mismatch` at a concrete ragged
input: widths 2 and 1. -/
theorem buildIndex_dimension_mismatch_witness :
    (∃ c ∈ [demoEmb1, demoEmbBad],
      c.embedding.length ≠ demoEmb1.embedding.length) ∧
    build_index [demoEmb1, demoEmbBad]
      = Except.error BuildError.dimensionMismatch :=
  ⟨by decide,
   (buildIndex_dimension_mismatch demoEmb1 [demoEmbBad] (by decide)).1⟩

/-- Claim C7: every hit's score is `1 / (1 + distance)` for the
squared-Euclidean distance of some stored vector; distances are
non-negative; on non-negative distances the score lies in `(0, 1]`; and
for any two non-negative distances `a`, `b`, `a < b` holds exactly when
`toScore b < toScore a` (the score is strictly antitone in the
distance). -/
theorem hit_score_monotonicity (index : VectorIndex) (q : List ℚ) (k : Nat)
    (a b : ℚ) (ha : 0 ≤ a) (hb : 0 ≤ b) :
    (∀ h ∈ search index q k, ∃ p, p < index.vectors.length ∧
        h.score = toScore (sqDist q (index.vectors.getD p []))) ∧
    (∀ v : List ℚ, 0 ≤ sqDist q v) ∧
    (0 < toScore a ∧ toScore a ≤ 1) ∧
    ((a < b) ↔ (toScore b < toScore a)) := by
  have h1a : (0 : ℚ) < 1 + a := by linarith
  have h1b : (0 : ℚ) < 1 + b := by linarith
  refine ⟨?_, ?_, ⟨?_, ?_⟩, ?_, ?_⟩
  · intro h hmem
    rw [search] at hmem
    obtain ⟨di, hdi, hsome⟩ := List.mem_filterMap.mp hmem
    rcases List.mem_append.mp hdi with htake | hpad
    · have hmemsorted := List.mem_of_mem_take htake
      have hmemscored :=
        (List.perm_insertionSort distLex _).mem_iff.mp hmemsorted
      obtain ⟨i, hi, hieq⟩ := List.mem_iff_getElem.mp hmemscored
      have hlen : i < index.vectors.length := by
        simpa [List.enum_length] using hi
      have hval : di = (sqDist q index.vectors[i], (i : Int)) := by
        rw [← hieq, List.getElem_map, List.getElem_enum]
      refine ⟨i, hlen, ?_⟩
      rw [List.getD_eq_getElem _ _ hlen]
      split at hsome
      · exact absurd hsome (by simp)
      · cases hsome
        rw [hval]
    · have : di = ((0 : ℚ), (-1 : Int)) := (List.mem_replicate.mp hpad).2
      subst this
      simp at hsome
  · intro v
    apply List.sum_nonneg
    intro x hx
    obtain ⟨p, _, rfl⟩ := List.mem_map.mp hx
    exact mul_self_nonneg _
  · exact one_div_pos.mpr h1a
  · exact (div_le_one h1a).mpr (by linarith)
  · intro hab
    exact one_div_lt_one_div_of_lt h1a (by linarith)
  · intro hscore
    by_contra hle
    push_neg at hle
    have : toScore a ≤ toScore b :=
      one_div_le_one_div_of_le h1b (by linarith)
    exact absurd (lt_of_le_of_lt this hscore) (lt_irrefl _)

/-- Witness for `hit_score_monotonicity` at distances `0` and `1`. -/
theorem hit_score_monotonicity_witness :
    (0 ≤ (0 : ℚ)) ∧ (0 ≤ (1 : ℚ)) ∧
    (0 < toScore 0 ∧ toScore 0 ≤ 1) ∧
    (((0 : ℚ) < 1) ↔ (toScore 1 < toScore 0)) :=
  ⟨le_refl 0, zero_le_one,
   (hit_score_monotonicity demoBuilt [1, 0] 5 0 1 (le_refl 0) zero_le_one).2.2.1,
   (hit_score_monotonicity demoBuilt [1, 0] 5 0 1 (le_refl 0) zero_le_one).2.2.2⟩

end YTExpert
